import Mathlib

/-!
Verification of the weighted-interval-scheduling solver: a shallow embedding
of `src/util.rs` (`final_compatible`) and `src/solvers.rs` (`internal`,
`sorted`, `unsorted`), together with proofs about it.

Conventions of the embedding:
- `Time` and `Weight` are both embedded as `Nat`. The Rust code is generic
  over any `Ord + Add + Clone` types and `Nat` is such an instance; the
  source explicitly leaves arithmetic overflow to the weight type itself.
- Rust slice accesses to the memoization buffer can panic (index out of
  bounds), so they are modelled with `Option`: a `none` result models a
  panic. Accesses into the interval slice are modelled with `List.getD`
  because every call site passes in-range indices only.
- The two `while` loops (the binary search of `final_compatible` and the
  backward reconstruction of `internal`) are embedded with an explicit fuel
  argument; the wrappers instantiate the fuel with the loop's iteration
  bound, and fuel adequacy is proved (`fcLoopF_fuel_irrel`,
  `reconstructF_fuel_irrel`).
-/

namespace WInter

/-- `WeightedInterval` from `src/weighted_interval.rs`, with `Time` and
`Weight` both instantiated at `Nat`. -/
structure WeightedInterval where
  start : Nat
  «end» : Nat
  weight : Nat
deriving Repr, DecidableEq, Inhabited

/-- The binary-search loop of `final_compatible` in `src/util.rs`.  One unit
of fuel is spent per iteration; the wrapper passes the initial window width
as fuel, which is enough since the window strictly shrinks each iteration. -/
def fcLoopF (l : List WeightedInterval) (target : Nat) : Nat → Nat → Nat → Nat
  | 0, low, _ => low
  | fuel + 1, low, high =>
    if low < high then
      let mid := low + (high - low + 1) / 2
      if (l.getD mid default).«end» ≤ target then fcLoopF l target fuel mid high
      else fcLoopF l target fuel low (mid - 1)
    else low

/-- `final_compatible` from `src/util.rs`: for the interval at `index`, the
largest index of an interval ending no later than it starts, if any. -/
def final_compatible (l : List WeightedInterval) (index : Nat) : Option Nat :=
  if index = 0 then none
  else
    let target := (l.getD index default).start
    let low := fcLoopF l target (index - 1) 0 (index - 1)
    if target < (l.getD low default).«end» then none
    else some low

/-- The `included` value computed by both passes of `internal` in
`src/solvers.rs`: the weight of interval `i` plus the memoized value of its
final compatible predecessor, if one exists.  A `none` result models the
panic of an out-of-bounds memo read. -/
def includedValue (l : List WeightedInterval) (memo : List Nat) (i : Nat) : Option Nat :=
  match final_compatible l i with
  | some k => (memo[k]?).map (fun mk => (l.getD i default).weight + mk)
  | none => some (l.getD i default).weight

/-- The memo-fill loop of `internal` (`for index in 1..intervals.len()`),
driven by the remaining iteration count; `none` models a panicking memo
access (read of `memo[index-1]`, or write of `memo[index]`). -/
def fillMemoF (l : List WeightedInterval) : Nat → Nat → List Nat → Option (List Nat)
  | 0, _, memo => some memo
  | rem + 1, index, memo =>
    match includedValue l memo index, memo[index - 1]? with
    | some inc, some exc =>
      if index < memo.length then fillMemoF l rem (index + 1) (memo.set index (max inc exc))
      else none
    | _, _ => none

/-- The backward-reconstruction loop of `internal`, with explicit fuel (one
unit per iteration; `internal` passes the interval count, which suffices
since the cursor strictly decreases). -/
def reconstructF (l : List WeightedInterval) (memo : List Nat) :
    Nat → Option Nat → Option (List WeightedInterval)
  | _, none => some []
  | 0, some _ => none
  | fuel + 1, some i =>
    let last := final_compatible l i
    match includedValue l memo i with
    | none => none
    | some z =>
      if i = 0 then (reconstructF l memo fuel last).map (fun r => l.getD i default :: r)
      else
        match memo[i - 1]? with
        | none => none
        | some mprev =>
          if mprev < z then (reconstructF l memo fuel last).map (fun r => l.getD i default :: r)
          else reconstructF l memo fuel (some (i - 1))

/-- `internal` from `src/solvers.rs`: the memo-fill pass followed by the
backward reconstruction, which appends to the solution buffer.  The two
`&mut` buffers are modelled by returning their final states. -/
def internal (l : List WeightedInterval) (memo : List Nat) (sol : List WeightedInterval) :
    Option (List Nat × List WeightedInterval) :=
  match fillMemoF l (l.length - 1) 1 memo with
  | none => none
  | some memo₁ =>
    let j : Option Nat := if l.length ≠ 0 then some (l.length - 1) else none
    (reconstructF l memo₁ l.length j).map (fun r => (memo₁, sol ++ r))

/-- `sorted` from `src/solvers.rs`: the presorted entry point.  On nonempty
input it writes the first interval's weight into `memoization[0]` and then
runs `internal`; on empty input it returns at once.  A `none` result models
the panic of the `memoization[0]` write on an empty memo buffer. -/
def sorted (l : List WeightedInterval) (memo : List Nat) (sol : List WeightedInterval) :
    Option (List Nat × List WeightedInterval) :=
  match l with
  | [] => some (memo, sol)
  | i0 :: _ =>
    if 0 < memo.length then internal l (memo.set 0 i0.weight) sol
    else none

/-- Insertion of one interval into an end-sorted list. -/
def insertByEnd (a : WeightedInterval) : List WeightedInterval → List WeightedInterval
  | [] => [a]
  | b :: rest => if a.«end» ≤ b.«end» then a :: b :: rest else b :: insertByEnd a rest

/-- Model of `intervals.sort_unstable_by(end)` in `unsorted`: a sort
ascending by end bound.  The source leaves the order among equal end bounds
unspecified (unstable sort); insertion sort is this model's choice. -/
def sortByEnd : List WeightedInterval → List WeightedInterval
  | [] => []
  | a :: rest => insertByEnd a (sortByEnd rest)

/-- `unsorted` from `src/solvers.rs`: clones and sorts the input, builds the
memoization vector by pushing only the first interval's weight (so its
length is one, whatever its capacity), allocates an empty solution vector,
and delegates to `internal` unconditionally. -/
def unsorted (l : List WeightedInterval) : Option (List WeightedInterval) :=
  let s := sortByEnd l
  let memo : List Nat := match s with | [] => [] | i0 :: _ => [i0.weight]
  (internal s memo []).map Prod.snd

/-- Number of calls to `internal` made by `sorted`, read off its control
flow: the empty-input early return makes none; the panic on an empty memo
buffer aborts before the call; otherwise exactly one call happens. -/
def sortedEngineCalls (l : List WeightedInterval) (memo : List Nat) : Nat :=
  match l with
  | [] => 0
  | _ :: _ => if 0 < memo.length then 1 else 0

/-- Number of calls to `internal` made by `unsorted`, read off its control
flow: the call is unconditional, also on empty input. -/
def unsortedEngineCalls (_l : List WeightedInterval) : Nat := 1

/-- Sum of the weights of a selection. -/
def sumW (s : List WeightedInterval) : Nat := (s.map (fun x => x.weight)).sum

/-- Two intervals do not overlap; touching at a boundary is allowed.  This is
the spec's predicate: no pair with `a.start < b.end` and `b.start < a.end`. -/
def NoConf (a b : WeightedInterval) : Prop :=
  ¬(a.start < b.«end» ∧ b.start < a.«end»)

/-- Boolean form of `NoConf`, for brute-force enumeration. -/
def noConfB (a b : WeightedInterval) : Bool :=
  !(decide (a.start < b.«end») && decide (b.start < a.«end»))

/-- A mutually non-overlapping selection. -/
def ValidSel (s : List WeightedInterval) : Prop := s.Pairwise NoConf

/-- Boolean pairwise check. -/
def pairwiseB (r : WeightedInterval → WeightedInterval → Bool) : List WeightedInterval → Bool
  | [] => true
  | a :: rest => rest.all (r a) && pairwiseB r rest

/-- Specification-side definition, following the spec's words: the maximum
achievable sum of weights over all mutually non-overlapping subsets of the
input, by brute force over all sublists. -/
def bestValue (m : List WeightedInterval) : Nat :=
  ((m.sublists.filter (pairwiseB noConfB)).map sumW).foldr max 0

/-- The input sequence is sorted ascending (non-decreasing) by end bound. -/
def SortedByEnd (l : List WeightedInterval) : Prop :=
  l.Pairwise (fun a b => a.«end» ≤ b.«end»)

instance (l : List WeightedInterval) : Decidable (SortedByEnd l) := by
  unfold SortedByEnd
  infer_instance

/-- Specification-side definition, following the spec's words: the contract
of the compatibility finder.  For `some k`: `k` is an index before `i` whose
interval ends no later than interval `i` starts, and is the greatest such
index.  For `none`: no index before `i` qualifies. -/
def IsGreatestCompat (l : List WeightedInterval) (i : Nat) : Option Nat → Prop
  | some k => k < i ∧ (l.getD k default).«end» ≤ (l.getD i default).start ∧
      ∀ j, j < i → (l.getD j default).«end» ≤ (l.getD i default).start → j ≤ k
  | none => ∀ j, j < i → ¬((l.getD j default).«end» ≤ (l.getD i default).start)

/-- The recurrence value of the memo table: `memoVal l w0 i` is the value
the fill pass stores at index `i`, starting from seed `w0` at index 0.
Defined with fuel (an upper bound on the index) so that the recursion is
structural; `memoVal` instantiates the fuel with the index itself. -/
def memoValF (l : List WeightedInterval) (w0 : Nat) : Nat → Nat → Nat
  | _, 0 => w0
  | 0, _ + 1 => w0
  | fuel + 1, i + 1 =>
    let inc := match final_compatible l (i + 1) with
      | some k => (l.getD (i + 1) default).weight + memoValF l w0 fuel k
      | none => (l.getD (i + 1) default).weight
    max inc (memoValF l w0 fuel i)

/-- The value of the filled memo table at index `i` (seed `w0` at index 0). -/
def memoVal (l : List WeightedInterval) (w0 : Nat) (i : Nat) : Nat :=
  memoValF l w0 i i

/-- Iteration bound for a reconstruction cursor. -/
def cursorFuel : Option Nat → Nat
  | none => 0
  | some i => i + 1

/-! ## Basic bridging lemmas -/

lemma getElem?_eq_some_getD (memo : List Nat) (k : Nat) (hk : k < memo.length) :
    memo[k]? = some (memo.getD k 0) := by
  rw [List.getElem?_eq_getElem hk, List.getD_eq_getElem memo 0 hk]

/-- End bounds are monotone along an end-sorted list. -/
lemma endLE_of_sorted {l : List WeightedInterval} (hs : SortedByEnd l) {i j : Nat}
    (hij : i ≤ j) (hj : j < l.length) :
    (l.getD i default).«end» ≤ (l.getD j default).«end» := by
  rcases Nat.lt_or_ge i j with h | h
  · have hi : i < l.length := lt_trans h hj
    rw [List.getD_eq_getElem l default hi, List.getD_eq_getElem l default hj]
    exact (List.pairwise_iff_getElem.mp hs) i j hi hj h
  · have heq : i = j := le_antisymm hij h
    subst heq; exact le_refl _

/-! ## The binary-search loop -/

lemma fcLoopF_bounds (l : List WeightedInterval) (t : Nat) :
    ∀ fuel low high, low ≤ high →
      low ≤ fcLoopF l t fuel low high ∧ fcLoopF l t fuel low high ≤ high := by
  intro fuel
  induction fuel with
  | zero => intro low high h; exact ⟨le_refl _, h⟩
  | succ fuel ih =>
    intro low high h
    by_cases hlh : low < high
    · simp only [fcLoopF, if_pos hlh]
      by_cases hcmp : (l.getD (low + (high - low + 1) / 2) default).«end» ≤ t
      · simp only [if_pos hcmp]
        have hb := ih (low + (high - low + 1) / 2) high (by omega)
        exact ⟨by omega, hb.2⟩
      · simp only [if_neg hcmp]
        have hb := ih low (low + (high - low + 1) / 2 - 1) (by omega)
        exact ⟨hb.1, by omega⟩
    · simp only [fcLoopF, if_neg hlh]
      exact ⟨le_refl _, h⟩

/-- The binary-search loop result does not depend on the fuel, as long as the
fuel is at least the initial window width: the loop reaches its exit. -/
lemma fcLoopF_fuel_irrel (l : List WeightedInterval) (t : Nat) :
    ∀ f₁ f₂ low high, high - low ≤ f₁ → high - low ≤ f₂ →
      fcLoopF l t f₁ low high = fcLoopF l t f₂ low high := by
  intro f₁
  induction f₁ with
  | zero =>
    intro f₂ low high h1 _h2
    have hlh : ¬ low < high := by omega
    cases f₂ with
    | zero => rfl
    | succ f₂ => simp [fcLoopF, hlh]
  | succ f₁ ih =>
    intro f₂ low high h1 h2
    by_cases hlh : low < high
    · cases f₂ with
      | zero => omega
      | succ f₂ =>
        simp only [fcLoopF, if_pos hlh]
        by_cases hcmp : (l.getD (low + (high - low + 1) / 2) default).«end» ≤ t
        · simp only [if_pos hcmp]; exact ih f₂ _ _ (by omega) (by omega)
        · simp only [if_neg hcmp]; exact ih f₂ _ _ (by omega) (by omega)
    · cases f₂ with
      | zero => simp [fcLoopF, hlh]
      | succ f₂ => simp [fcLoopF, hlh]

/-- Loop invariant of the binary search, at exit: the result is compatible
with the target or it never moved off the initial lower bound, and every
index strictly above the result (within the window) is incompatible. -/
lemma fcLoopF_spec {l : List WeightedInterval} (hs : SortedByEnd l) (t : Nat) :
    ∀ fuel low high, low ≤ high → high < l.length → high - low ≤ fuel →
      ((l.getD (fcLoopF l t fuel low high) default).«end» ≤ t ∨
        fcLoopF l t fuel low high = low) ∧
      (∀ j, fcLoopF l t fuel low high < j → j ≤ high →
        t < (l.getD j default).«end») := by
  intro fuel
  induction fuel with
  | zero =>
    intro low high hlow _hhigh hgap
    have hred : fcLoopF l t 0 low high = low := rfl
    refine ⟨Or.inr hred, ?_⟩
    intro j hj1 hj2
    rw [hred] at hj1
    omega
  | succ fuel ih =>
    intro low high hlow hhigh hgap
    by_cases hlh : low < high
    · simp only [fcLoopF, if_pos hlh]
      by_cases hcmp : (l.getD (low + (high - low + 1) / 2) default).«end» ≤ t
      · simp only [if_pos hcmp]
        have h1 := ih (low + (high - low + 1) / 2) high (by omega) hhigh (by omega)
        refine ⟨?_, h1.2⟩
        rcases h1.1 with h | h
        · exact Or.inl h
        · exact Or.inl (by rw [h]; exact hcmp)
      · simp only [if_neg hcmp]
        have h1 := ih low (low + (high - low + 1) / 2 - 1) (by omega) (by omega) (by omega)
        refine ⟨h1.1, ?_⟩
        intro j hj1 hj2
        by_cases hjm : j ≤ low + (high - low + 1) / 2 - 1
        · exact h1.2 j hj1 hjm
        · have hmj : low + (high - low + 1) / 2 ≤ j := by omega
          have hmono := endLE_of_sorted hs hmj (lt_of_le_of_lt hj2 hhigh)
          omega
    · simp only [fcLoopF, if_neg hlh]
      refine ⟨Or.inr (by trivial), ?_⟩
      intro j hj1 hj2
      exact absurd (lt_of_lt_of_le hj1 hj2) hlh

/-! ## The compatibility finder -/

lemma final_compatible_zero (l : List WeightedInterval) :
    final_compatible l 0 = none := rfl

lemma final_compatible_eq (l : List WeightedInterval) (i : Nat) (hi : i ≠ 0) :
    final_compatible l i =
      if (l.getD i default).start <
          (l.getD (fcLoopF l (l.getD i default).start (i - 1) 0 (i - 1)) default).«end»
      then none
      else some (fcLoopF l (l.getD i default).start (i - 1) 0 (i - 1)) := by
  simp [final_compatible, hi]

/-- A jump to the final compatible predecessor strictly decreases the index
(the reconstruction cursor always moves down). -/
lemma final_compatible_lt {l : List WeightedInterval} {i k : Nat}
    (h : final_compatible l i = some k) : k < i := by
  by_cases hi : i = 0
  · subst hi; rw [final_compatible_zero] at h; exact absurd h (by simp)
  · rw [final_compatible_eq l i hi] at h
    by_cases hc : (l.getD i default).start <
        (l.getD (fcLoopF l (l.getD i default).start (i - 1) 0 (i - 1)) default).«end»
    · rw [if_pos hc] at h; exact absurd h (by simp)
    · rw [if_neg hc] at h
      have hb := (fcLoopF_bounds l (l.getD i default).start (i - 1) 0 (i - 1)
        (Nat.zero_le _)).2
      have hk : fcLoopF l (l.getD i default).start (i - 1) 0 (i - 1) = k :=
        Option.some.inj h
      omega

/-- The final compatible predecessor really is compatible: its end bound is
at most the start bound of the interval it was computed for. -/
lemma final_compatible_endLE {l : List WeightedInterval} {i k : Nat}
    (h : final_compatible l i = some k) :
    (l.getD k default).«end» ≤ (l.getD i default).start := by
  by_cases hi : i = 0
  · subst hi; rw [final_compatible_zero] at h; exact absurd h (by simp)
  · rw [final_compatible_eq l i hi] at h
    by_cases hc : (l.getD i default).start <
        (l.getD (fcLoopF l (l.getD i default).start (i - 1) 0 (i - 1)) default).«end»
    · rw [if_pos hc] at h; exact absurd h (by simp)
    · rw [if_neg hc] at h
      have hk : fcLoopF l (l.getD i default).start (i - 1) 0 (i - 1) = k :=
        Option.some.inj h
      rw [← hk]; omega

/-- Full functional correctness of the compatibility finder on end-sorted
input: it meets the greatest-compatible-index contract. -/
lemma final_compatible_spec {l : List WeightedInterval} (hs : SortedByEnd l) {i : Nat}
    (hi : i < l.length) : IsGreatestCompat l i (final_compatible l i) := by
  by_cases h0 : i = 0
  · subst h0
    rw [final_compatible_zero]
    exact fun j hj => absurd hj (Nat.not_lt_zero j)
  · rw [final_compatible_eq l i h0]
    have hspec := fcLoopF_spec hs (l.getD i default).start (i - 1) 0 (i - 1)
      (Nat.zero_le _) (by omega) (by omega)
    have hb := fcLoopF_bounds l (l.getD i default).start (i - 1) 0 (i - 1) (Nat.zero_le _)
    by_cases hc : (l.getD i default).start <
        (l.getD (fcLoopF l (l.getD i default).start (i - 1) 0 (i - 1)) default).«end»
    · rw [if_pos hc]
      intro j hj hcompat
      rcases Nat.lt_trichotomy j (fcLoopF l (l.getD i default).start (i - 1) 0 (i - 1))
        with hjl | hjl | hjl
      · rcases hspec.1 with h | h
        · omega
        · omega
      · subst hjl; omega
      · have := hspec.2 j hjl (by omega)
        omega
    · rw [if_neg hc]
      refine ⟨by omega, by omega, ?_⟩
      intro j hj hcompat
      by_contra hjk
      push_neg at hjk
      have := hspec.2 j hjk (by omega)
      omega

/-! ## The memo recurrence -/

lemma memoValF_zero (l : List WeightedInterval) (w0 fuel : Nat) :
    memoValF l w0 fuel 0 = w0 := by
  cases fuel <;> rfl

lemma memoValF_fuel_irrel (l : List WeightedInterval) (w0 : Nat) :
    ∀ f₁ f₂ i, i ≤ f₁ → i ≤ f₂ → memoValF l w0 f₁ i = memoValF l w0 f₂ i := by
  intro f₁
  induction f₁ with
  | zero =>
    intro f₂ i h1 _h2
    have hz : i = 0 := by omega
    subst hz
    rw [memoValF_zero, memoValF_zero]
  | succ f₁ ih =>
    intro f₂ i h1 h2
    cases i with
    | zero => rw [memoValF_zero, memoValF_zero]
    | succ i =>
      cases f₂ with
      | zero => omega
      | succ f₂ =>
        cases hfc : final_compatible l (i + 1) with
        | none =>
          simp only [memoValF, hfc]
          rw [ih f₂ i (by omega) (by omega)]
        | some k =>
          have hk : k < i + 1 := final_compatible_lt hfc
          simp only [memoValF, hfc]
          rw [ih f₂ i (by omega) (by omega), ih f₂ k (by omega) (by omega)]

lemma memoVal_zero (l : List WeightedInterval) (w0 : Nat) : memoVal l w0 0 = w0 := rfl

/-- The defining recurrence of the memo value at a successor index: the
maximum of the inclusion value and the value one index earlier. -/
lemma memoVal_succ (l : List WeightedInterval) (w0 i : Nat) :
    memoVal l w0 (i + 1) =
      max (match final_compatible l (i + 1) with
            | some k => (l.getD (i + 1) default).weight + memoVal l w0 k
            | none => (l.getD (i + 1) default).weight)
        (memoVal l w0 i) := by
  cases hfc : final_compatible l (i + 1) with
  | none =>
    simp only [memoVal, memoValF, hfc]
  | some k =>
    have hk : k < i + 1 := final_compatible_lt hfc
    simp only [memoVal, memoValF, hfc]
    rw [memoValF_fuel_irrel l w0 i k k (by omega) le_rfl,
      memoValF_fuel_irrel l w0 i i i le_rfl le_rfl]

lemma memoVal_le_succ (l : List WeightedInterval) (w0 i : Nat) :
    memoVal l w0 i ≤ memoVal l w0 (i + 1) := by
  rw [memoVal_succ]
  exact le_max_right _ _

/-! ## The fill pass -/

lemma getD_set_self (memo : List Nat) (i v : Nat) (h : i < memo.length) :
    (memo.set i v).getD i 0 = v := by
  rw [List.getD_eq_getElem?_getD, List.getElem?_set_self h]
  rfl

lemma getD_set_ne (memo : List Nat) (i j v : Nat) (h : i ≠ j) :
    (memo.set i v).getD j 0 = memo.getD j 0 := by
  rw [List.getD_eq_getElem?_getD, List.getElem?_set_ne h, ← List.getD_eq_getElem?_getD]

/-- On a memo buffer whose entries below index `i` agree with the recurrence,
the included value is exactly the inclusion branch of the recurrence. -/
lemma includedValue_eq {l : List WeightedInterval} {memo : List Nat} (w0 : Nat) {i : Nat}
    (hlen : l.length ≤ memo.length) (hi : i < l.length)
    (hmem : ∀ j, j < i → memo.getD j 0 = memoVal l w0 j) :
    includedValue l memo i =
      some (match final_compatible l i with
        | some k => (l.getD i default).weight + memoVal l w0 k
        | none => (l.getD i default).weight) := by
  cases hfc : final_compatible l i with
  | none => simp [includedValue, hfc]
  | some k =>
    have hk : k < i := final_compatible_lt hfc
    have hkm : k < memo.length := by omega
    simp only [includedValue, hfc, getElem?_eq_some_getD memo k hkm, hmem k hk,
      Option.map_some']

/-- The fill loop succeeds and leaves the memo table equal to the recurrence,
whenever the buffer is at least as long as the interval list and the entries
below the starting index already agree with the recurrence. -/
lemma fillMemoF_spec {l : List WeightedInterval} (w0 : Nat) :
    ∀ rem index memo, index + rem = l.length → 1 ≤ index → l.length ≤ memo.length →
      (∀ j, j < index → memo.getD j 0 = memoVal l w0 j) →
      ∃ memo', fillMemoF l rem index memo = some memo' ∧
        memo'.length = memo.length ∧
        ∀ j, j < l.length → memo'.getD j 0 = memoVal l w0 j := by
  intro rem
  induction rem with
  | zero =>
    intro index memo hsum hidx hlen hmem
    exact ⟨memo, rfl, rfl, fun j hj => hmem j (by omega)⟩
  | succ rem ih =>
    intro index memo hsum hidx hlen hmem
    obtain ⟨i, rfl⟩ : ∃ i, index = i + 1 := ⟨index - 1, by omega⟩
    have hi : i + 1 < l.length := by omega
    have hinc := includedValue_eq w0 hlen hi (fun j hj => hmem j hj)
    have hexc : memo[i + 1 - 1]? = some (memoVal l w0 i) := by
      have : i + 1 - 1 = i := by omega
      rw [this, getElem?_eq_some_getD memo i (by omega), hmem i (by omega)]
    simp only [fillMemoF, hinc, hexc]
    rw [if_pos (by omega : i + 1 < memo.length)]
    rw [show max (match final_compatible l (i + 1) with
          | some k => (l.getD (i + 1) default).weight + memoVal l w0 k
          | none => (l.getD (i + 1) default).weight) (memoVal l w0 i)
        = memoVal l w0 (i + 1) from (memoVal_succ l w0 i).symm]
    have hmem' : ∀ j, j < i + 1 + 1 →
        (memo.set (i + 1) (memoVal l w0 (i + 1))).getD j 0 = memoVal l w0 j := by
      intro j hj
      rcases Nat.lt_or_ge j (i + 1) with hj' | hj'
      · rw [getD_set_ne memo (i + 1) j _ (by omega)]
        exact hmem j hj'
      · have hje : j = i + 1 := by omega
        subst hje
        exact getD_set_self memo (i + 1) _ (by omega)
    obtain ⟨memo', h1, h2, h3⟩ := ih (i + 1 + 1) (memo.set (i + 1) (memoVal l w0 (i + 1)))
      (by omega) (by omega) (by rw [List.length_set]; exact hlen) hmem'
    exact ⟨memo', h1, by rw [h2, List.length_set], h3⟩

/-- The fill loop preserves the buffer length whenever it succeeds. -/
lemma fillMemoF_length (l : List WeightedInterval) :
    ∀ rem index memo memo', fillMemoF l rem index memo = some memo' →
      memo'.length = memo.length := by
  intro rem
  induction rem with
  | zero =>
    intro index memo memo' h
    have heq : memo = memo' := Option.some.inj h
    rw [← heq]
  | succ rem ih =>
    intro index memo memo' h
    simp only [fillMemoF] at h
    split at h
    · split at h
      · have := ih _ _ _ h
        rw [this, List.length_set]
      · exact absurd h (by simp)
    · exact absurd h (by simp)

/-- The fill loop never writes below its starting index; in particular the
seed at index 0 survives. -/
lemma fillMemoF_getD_zero (l : List WeightedInterval) :
    ∀ rem index memo memo', 1 ≤ index → fillMemoF l rem index memo = some memo' →
      memo'.getD 0 0 = memo.getD 0 0 := by
  intro rem
  induction rem with
  | zero =>
    intro index memo memo' _hidx h
    have heq : memo = memo' := Option.some.inj h
    rw [← heq]
  | succ rem ih =>
    intro index memo memo' hidx h
    simp only [fillMemoF] at h
    split at h
    · split at h
      · have := ih _ _ _ (by omega) h
        rw [this, getD_set_ne _ _ _ _ (by omega)]
      · exact absurd h (by simp)
    · exact absurd h (by simp)

/-! ## The reconstruction pass -/

lemma reconstructF_none (l : List WeightedInterval) (memo : List Nat) (fuel : Nat) :
    reconstructF l memo fuel none = some [] := by
  cases fuel <;> rfl

lemma sumW_nil : sumW [] = 0 := rfl

lemma sumW_cons (a : WeightedInterval) (s : List WeightedInterval) :
    sumW (a :: s) = a.weight + sumW s := by simp [sumW]

lemma sumW_append (s t : List WeightedInterval) :
    sumW (s ++ t) = sumW s + sumW t := by simp [sumW]

lemma memoVal_succ_some {l : List WeightedInterval} (w0 : Nat) {i k : Nat}
    (hfc : final_compatible l (i + 1) = some k) :
    memoVal l w0 (i + 1) =
      max ((l.getD (i + 1) default).weight + memoVal l w0 k) (memoVal l w0 i) := by
  rw [memoVal_succ, hfc]

lemma memoVal_succ_none {l : List WeightedInterval} (w0 : Nat) {i : Nat}
    (hfc : final_compatible l (i + 1) = none) :
    memoVal l w0 (i + 1) =
      max (l.getD (i + 1) default).weight (memoVal l w0 i) := by
  rw [memoVal_succ, hfc]

/-- The reconstruction result does not depend on the fuel, as long as the
fuel exceeds the cursor: the backward walk reaches its exit because the
cursor strictly decreases. -/
lemma reconstructF_fuel_irrel (l : List WeightedInterval) (memo : List Nat) :
    ∀ f₁ f₂ j, cursorFuel j ≤ f₁ → cursorFuel j ≤ f₂ →
      reconstructF l memo f₁ j = reconstructF l memo f₂ j := by
  intro f₁
  induction f₁ with
  | zero =>
    intro f₂ j h1 _h2
    cases j with
    | none => rw [reconstructF_none, reconstructF_none]
    | some i => simp [cursorFuel] at h1
  | succ f₁ ih =>
    intro f₂ j h1 h2
    cases j with
    | none => rw [reconstructF_none, reconstructF_none]
    | some i =>
      cases f₂ with
      | zero => simp [cursorFuel] at h2
      | succ f₂ =>
        simp only [cursorFuel] at h1 h2
        cases hinc : includedValue l memo i with
        | none => simp only [reconstructF, hinc]
        | some z =>
          by_cases hi0 : i = 0
          · subst hi0
            simp only [reconstructF, hinc, if_pos rfl, final_compatible_zero,
              reconstructF_none, if_true]
          · cases hprev : memo[i - 1]? with
            | none => simp only [reconstructF, hinc, hprev, if_neg hi0]
            | some mprev =>
              by_cases hsel : mprev < z
              · cases hfc : final_compatible l i with
                | none =>
                  simp only [reconstructF, hinc, hprev, if_neg hi0, if_pos hsel, hfc,
                    reconstructF_none]
                | some k =>
                  have hk := final_compatible_lt hfc
                  simp only [reconstructF, hinc, hprev, if_neg hi0, if_pos hsel, hfc]
                  rw [ih f₂ (some k) (by simp only [cursorFuel]; omega)
                    (by simp only [cursorFuel]; omega)]
              · simp only [reconstructF, hinc, hprev, if_neg hi0, if_neg hsel]
                exact ih f₂ (some (i - 1)) (by simp only [cursorFuel]; omega)
                  (by simp only [cursorFuel]; omega)

/-- Run on a memo table that equals the recurrence, the reconstruction walk
succeeds and returns a selection whose total weight is the memo value at the
cursor. -/
lemma reconstructF_sum {l : List WeightedInterval} {memo : List Nat}
    (hlen : l.length ≤ memo.length)
    (hmem : ∀ j, j < l.length → memo.getD j 0 = memoVal l (l.getD 0 default).weight j) :
    ∀ fuel i, i < l.length → i < fuel →
      ∃ r, reconstructF l memo fuel (some i) = some r ∧
        sumW r = memoVal l (l.getD 0 default).weight i := by
  intro fuel
  induction fuel with
  | zero => intro i _ h; omega
  | succ fuel ih =>
    intro i hi hfuel
    have hinc := includedValue_eq ((l.getD 0 default).weight) hlen hi
      (fun j hj => hmem j (by omega))
    by_cases hi0 : i = 0
    · subst hi0
      refine ⟨[l.getD 0 default], ?_, ?_⟩
      · simp only [reconstructF, hinc, if_pos rfl, final_compatible_zero,
          reconstructF_none, Option.map_some', if_true]
      · rw [sumW_cons, sumW_nil, memoVal_zero]; omega
    · obtain ⟨i', rfl⟩ : ∃ i', i = i' + 1 := ⟨i - 1, by omega⟩
      have hexc : memo[i' + 1 - 1]? = some (memoVal l (l.getD 0 default).weight i') := by
        have he : i' + 1 - 1 = i' := by omega
        rw [he, getElem?_eq_some_getD memo i' (by omega), hmem i' (by omega)]
      cases hfc : final_compatible l (i' + 1) with
      | some k =>
        have hk : k < i' + 1 := final_compatible_lt hfc
        rw [hfc] at hinc
        by_cases hsel : memoVal l (l.getD 0 default).weight i' <
            (l.getD (i' + 1) default).weight + memoVal l (l.getD 0 default).weight k
        · obtain ⟨r', hr1, hr2⟩ := ih k (by omega) (by omega)
          refine ⟨l.getD (i' + 1) default :: r', ?_, ?_⟩
          · simp only [reconstructF, hinc, hexc, if_neg hi0, if_pos hsel, hfc, hr1,
              Option.map_some']
          · rw [sumW_cons, hr2, memoVal_succ_some _ hfc, max_eq_left (le_of_lt hsel)]
        · obtain ⟨r', hr1, hr2⟩ := ih i' (by omega) (by omega)
          refine ⟨r', ?_, ?_⟩
          · simp only [reconstructF, hinc, hexc, if_neg hi0, if_neg hsel, hfc]
            exact hr1
          · rw [hr2, memoVal_succ_some _ hfc, max_eq_right (not_lt.mp hsel)]
      | none =>
        rw [hfc] at hinc
        by_cases hsel : memoVal l (l.getD 0 default).weight i' <
            (l.getD (i' + 1) default).weight
        · refine ⟨[l.getD (i' + 1) default], ?_, ?_⟩
          · simp only [reconstructF, hinc, hexc, if_neg hi0, if_pos hsel, hfc,
              reconstructF_none, Option.map_some']
          · rw [sumW_cons, sumW_nil, memoVal_succ_none _ hfc, Nat.add_zero,
              max_eq_left (le_of_lt hsel)]
        · obtain ⟨r', hr1, hr2⟩ := ih i' (by omega) (by omega)
          refine ⟨r', ?_, ?_⟩
          · simp only [reconstructF, hinc, hexc, if_neg hi0, if_neg hsel, hfc]
            exact hr1
          · rw [hr2, memoVal_succ_none _ hfc, max_eq_right (not_lt.mp hsel)]

/-- Every element the reconstruction returns comes from an index at or below
the cursor, and the returned selection is compatible in push order: each
later-pushed interval ends no later than each earlier-pushed one starts.
Only sortedness of the input is needed, not any property of the memo. -/
lemma reconstructF_valid {l : List WeightedInterval} {memo : List Nat}
    (hs : SortedByEnd l) :
    ∀ fuel i r, i < l.length → reconstructF l memo fuel (some i) = some r →
      (∀ x ∈ r, ∃ j, j ≤ i ∧ j < l.length ∧ x = l.getD j default) ∧
      r.Pairwise (fun a b => b.«end» ≤ a.start) := by
  intro fuel
  induction fuel with
  | zero => intro i r _ h; exact absurd h (by simp [reconstructF])
  | succ fuel ih =>
    intro i r hi h
    cases hinc : includedValue l memo i with
    | none => rw [reconstructF, hinc] at h; exact absurd h (by simp)
    | some z =>
      by_cases hi0 : i = 0
      · subst hi0
        simp only [reconstructF, hinc, if_pos rfl, final_compatible_zero,
          reconstructF_none, Option.map_some', if_true] at h
        have hr : r = [l.getD 0 default] := (Option.some.inj h).symm
        subst hr
        refine ⟨?_, by simp⟩
        intro x hx
        have hx0 : x = l.getD 0 default := by simpa using hx
        exact ⟨0, le_rfl, hi, hx0⟩
      · cases hprev : memo[i - 1]? with
        | none =>
          rw [reconstructF] at h
          simp only [hinc, hprev, if_neg hi0] at h
          exact absurd h (by simp)
        | some mprev =>
          by_cases hsel : mprev < z
          · cases hfc : final_compatible l i with
            | none =>
              simp only [reconstructF, hinc, hprev, if_neg hi0, if_pos hsel, hfc,
                reconstructF_none, Option.map_some'] at h
              have hr : r = [l.getD i default] := (Option.some.inj h).symm
              subst hr
              refine ⟨?_, by simp⟩
              intro x hx
              have hxi : x = l.getD i default := by simpa using hx
              exact ⟨i, le_rfl, hi, hxi⟩
            | some k =>
              have hk : k < i := final_compatible_lt hfc
              simp only [reconstructF, hinc, hprev, if_neg hi0, if_pos hsel, hfc] at h
              cases hrec : reconstructF l memo fuel (some k) with
              | none => rw [hrec] at h; exact absurd h (by simp)
              | some r' =>
                rw [hrec] at h
                simp only [Option.map_some'] at h
                have hr : r = l.getD i default :: r' := (Option.some.inj h).symm
                subst hr
                obtain ⟨hmemr, hpw⟩ := ih k r' (by omega) hrec
                constructor
                · intro x hx
                  rcases List.mem_cons.mp hx with hx | hx
                  · exact ⟨i, le_rfl, hi, hx⟩
                  · obtain ⟨j, hj1, hj2, hj3⟩ := hmemr x hx
                    exact ⟨j, by omega, hj2, hj3⟩
                · rw [List.pairwise_cons]
                  refine ⟨?_, hpw⟩
                  intro b hb
                  obtain ⟨j, hj1, hj2, hj3⟩ := hmemr b hb
                  have h1 : (l.getD j default).«end» ≤ (l.getD k default).«end» :=
                    endLE_of_sorted hs hj1 (by omega)
                  have h2 := final_compatible_endLE hfc
                  rw [hj3]
                  omega
          · simp only [reconstructF, hinc, hprev, if_neg hi0, if_neg hsel] at h
            obtain ⟨hmemr, hpw⟩ := ih (i - 1) r (by omega) h
            refine ⟨?_, hpw⟩
            intro x hx
            obtain ⟨j, hj1, hj2, hj3⟩ := hmemr x hx
            exact ⟨j, by omega, hj2, hj3⟩

/-! ## The brute-force optimum -/

lemma noConfB_iff (a b : WeightedInterval) : noConfB a b = true ↔ NoConf a b := by
  simp [noConfB, NoConf]
  omega

lemma pairwiseB_iff (s : List WeightedInterval) :
    pairwiseB noConfB s = true ↔ ValidSel s := by
  induction s with
  | nil => simp [pairwiseB, ValidSel]
  | cons a rest ih =>
    rw [show pairwiseB noConfB (a :: rest) =
        (rest.all (noConfB a) && pairwiseB noConfB rest) from rfl]
    rw [Bool.and_eq_true, ih]
    unfold ValidSel
    rw [List.pairwise_cons, List.all_eq_true]
    constructor
    · rintro ⟨h1, h2⟩
      exact ⟨fun b hb => (noConfB_iff a b).mp (h1 b hb), h2⟩
    · rintro ⟨h1, h2⟩
      exact ⟨fun b hb => (noConfB_iff a b).mpr (h1 b hb), h2⟩

lemma le_foldr_max (x : Nat) : ∀ xs : List Nat, x ∈ xs → x ≤ xs.foldr max 0 := by
  intro xs
  induction xs with
  | nil => intro h; cases h
  | cons a rest ih =>
    intro h
    rcases List.mem_cons.mp h with h | h
    · subst h; exact le_max_left _ _
    · exact le_trans (ih h) (le_max_right _ _)

lemma foldr_max_mem : ∀ xs : List Nat, xs.foldr max 0 ∈ xs ∨ xs.foldr max 0 = 0 := by
  intro xs
  induction xs with
  | nil => exact Or.inr rfl
  | cons a rest ih =>
    rcases max_choice a (rest.foldr max 0) with h | h
    · left; rw [List.foldr_cons, h]; exact List.mem_cons_self _ _
    · rw [List.foldr_cons, h]
      rcases ih with h2 | h2
      · left; exact List.mem_cons_of_mem a h2
      · right; exact h2

/-- Any valid selection drawn from `m` weighs at most the brute-force
optimum over `m`. -/
lemma sumW_le_bestValue {m s : List WeightedInterval} (hsub : s.Sublist m)
    (hval : ValidSel s) : sumW s ≤ bestValue m := by
  apply le_foldr_max
  exact List.mem_map.mpr
    ⟨s, List.mem_filter.mpr ⟨List.mem_sublists.mpr hsub, (pairwiseB_iff s).mpr hval⟩, rfl⟩

/-- The brute-force optimum is achieved by some valid selection. -/
lemma bestValue_achieved (m : List WeightedInterval) :
    ∃ s, s.Sublist m ∧ ValidSel s ∧ sumW s = bestValue m := by
  rcases foldr_max_mem ((m.sublists.filter (pairwiseB noConfB)).map sumW) with h | h
  · obtain ⟨s, hs, hsum⟩ := List.mem_map.mp h
    obtain ⟨hs1, hs2⟩ := List.mem_filter.mp hs
    exact ⟨s, List.mem_sublists.mp hs1, (pairwiseB_iff s).mp hs2, hsum⟩
  · refine ⟨[], List.nil_sublist m, by simp [ValidSel], ?_⟩
    rw [sumW_nil, bestValue, h]

/-! ## Positional helpers -/

lemma mem_take_getD {l : List WeightedInterval} {m : Nat} {x : WeightedInterval} :
    x ∈ l.take m ↔ ∃ j, j < m ∧ j < l.length ∧ x = l.getD j default := by
  rw [List.mem_take_iff_getElem]
  constructor
  · rintro ⟨i, hm, hx⟩
    have h1 : i < m := lt_of_lt_of_le hm (min_le_left _ _)
    have h2 : i < l.length := lt_of_lt_of_le hm (min_le_right _ _)
    refine ⟨i, h1, h2, ?_⟩
    rw [List.getD_eq_getElem l default h2, hx]
  · rintro ⟨j, h1, h2, hx⟩
    refine ⟨j, lt_min h1 h2, ?_⟩
    rw [← List.getD_eq_getElem l default h2, hx]

lemma take_succ_getD {l : List WeightedInterval} {i : Nat} (hi : i < l.length) :
    l.take (i + 1) = l.take i ++ [l.getD i default] := by
  rw [List.take_succ, List.getElem?_eq_getElem hi, List.getD_eq_getElem l default hi]
  rfl

lemma take_sublist_take {l : List WeightedInterval} {a b : Nat} (h : a ≤ b) :
    (l.take a).Sublist (l.take b) := by
  have h2 : l.take a = (l.take b).take a := by rw [List.take_take, min_eq_left h]
  rw [h2]
  exact List.take_sublist a (l.take b)

lemma mem_drop_take_getD {l : List WeightedInterval} {d m : Nat} {x : WeightedInterval}
    (hm : m ≤ l.length) (hx : x ∈ (l.take m).drop d) :
    ∃ j, d ≤ j ∧ j < m ∧ x = l.getD j default := by
  obtain ⟨n, hn, hxn⟩ := List.mem_iff_getElem.mp hx
  rw [List.length_drop, List.length_take] at hn
  have hj : d + n < m := by omega
  refine ⟨d + n, by omega, hj, ?_⟩
  rw [← hxn, List.getElem_drop, List.getElem_take,
    List.getD_eq_getElem l default (by omega)]

/-! ## Optimality of the memo recurrence -/

/-- Upper bound: every valid selection from the prefix `0..=i` weighs at most
the memo value at `i`.  Needs end-sortedness and strictly positive interval
lengths. -/
lemma sumW_le_memoVal {l : List WeightedInterval} (hs : SortedByEnd l)
    (hp : ∀ x ∈ l, x.start < x.«end») :
    ∀ i, i < l.length → ∀ s, s.Sublist (l.take (i + 1)) → ValidSel s →
      sumW s ≤ memoVal l (l.getD 0 default).weight i := by
  intro i
  induction i using Nat.strong_induction_on with
  | _ i ih =>
    intro hi s hsub hval
    cases i with
    | zero =>
      have h1 : l.take (0 + 1) = [l.getD 0 default] := by
        rw [take_succ_getD hi]
        rfl
      rw [h1] at hsub
      rcases List.sublist_singleton.mp hsub with rfl | rfl
      · rw [sumW_nil]; exact Nat.zero_le _
      · rw [sumW_cons, sumW_nil, memoVal_zero]; omega
    | succ i' =>
      rw [take_succ_getD hi] at hsub
      obtain ⟨s₁, s₂, rfl, hsub1, hsub2⟩ := List.sublist_append_iff.mp hsub
      rcases List.sublist_singleton.mp hsub2 with rfl | rfl
      · rw [List.append_nil] at hval ⊢
        have hle := ih i' (by omega) (by omega) s₁ hsub1 hval
        calc sumW s₁ ≤ memoVal l (l.getD 0 default).weight i' := hle
          _ ≤ _ := memoVal_le_succ l _ i'
      · have hvs : ValidSel s₁ ∧ ∀ x ∈ s₁, NoConf x (l.getD (i' + 1) default) := by
          unfold ValidSel at hval
          rw [List.pairwise_append] at hval
          exact ⟨hval.1, fun x hx => hval.2.2 x hx _ (List.mem_cons_self _ _)⟩
        have key : ∀ x ∈ s₁, x.«end» ≤ (l.getD (i' + 1) default).start := by
          intro x hx
          have hxtake : x ∈ l.take (i' + 1) := hsub1.subset hx
          obtain ⟨j, hj1, hj2, hxj⟩ := mem_take_getD.mp hxtake
          have hxl : x ∈ l := (List.take_sublist _ l).subset hxtake
          have hpx := hp x hxl
          have hend : x.«end» ≤ (l.getD (i' + 1) default).«end» := by
            rw [hxj]; exact endLE_of_sorted hs (by omega) hi
          have hnc := hvs.2 x hx
          unfold NoConf at hnc
          rcases not_and_or.mp hnc with h | h
          · omega
          · omega
        cases hfc : final_compatible l (i' + 1) with
        | some k =>
          have hk : k < i' + 1 := final_compatible_lt hfc
          have hgreat := final_compatible_spec hs hi
          rw [hfc] at hgreat
          simp only [IsGreatestCompat] at hgreat
          obtain ⟨hk1, hk2, hk3⟩ := hgreat
          have htk : l.take (i' + 1) =
              l.take (k + 1) ++ (l.take (i' + 1)).drop (k + 1) := by
            conv_lhs => rw [← List.take_append_drop (k + 1) (l.take (i' + 1))]
            rw [List.take_take, min_eq_left (by omega)]
          rw [htk] at hsub1
          obtain ⟨u, v, hs1uv, hu, hv⟩ := List.sublist_append_iff.mp hsub1
          have hmid : ∀ x ∈ (l.take (i' + 1)).drop (k + 1),
              ¬ (x.«end» ≤ (l.getD (i' + 1) default).start) := by
            intro x hx hcon
            obtain ⟨j, hj1, hj2, hxj⟩ := mem_drop_take_getD (by omega) hx
            have := hk3 j (by omega) (by rw [← hxj]; exact hcon)
            omega
          cases v with
          | cons b v' =>
            have hb1 : b ∈ (l.take (i' + 1)).drop (k + 1) :=
              hv.subset (List.mem_cons_self _ _)
            have hb2 : b ∈ s₁ := by
              rw [hs1uv]
              exact List.mem_append.mpr (Or.inr (List.mem_cons_self _ _))
            exact absurd (key b hb2) (hmid b hb1)
          | nil =>
            rw [List.append_nil] at hs1uv
            rw [← hs1uv] at hu
            have hih := ih k (by omega) (by omega) s₁ hu hvs.1
            calc sumW (s₁ ++ [l.getD (i' + 1) default])
                = sumW s₁ + (l.getD (i' + 1) default).weight := by
                  rw [sumW_append, sumW_cons, sumW_nil, Nat.add_zero]
              _ ≤ memoVal l (l.getD 0 default).weight k +
                  (l.getD (i' + 1) default).weight := by omega
              _ = (l.getD (i' + 1) default).weight +
                  memoVal l (l.getD 0 default).weight k := by omega
              _ ≤ memoVal l (l.getD 0 default).weight (i' + 1) := by
                  rw [memoVal_succ_some _ hfc]
                  exact le_max_left _ _
        | none =>
          have hgreat := final_compatible_spec hs hi
          rw [hfc] at hgreat
          simp only [IsGreatestCompat] at hgreat
          cases s₁ with
          | cons b s₁' =>
            have hb : b ∈ b :: s₁' := List.mem_cons_self _ _
            obtain ⟨j, hj1, hj2, hxj⟩ := mem_take_getD.mp (hsub1.subset hb)
            have hkey := key b hb
            rw [hxj] at hkey
            exact absurd hkey (hgreat j hj1)
          | nil =>
            rw [List.nil_append, sumW_cons, sumW_nil, Nat.add_zero,
              memoVal_succ_none _ hfc]
            exact le_max_left _ _

/-- Achievability: the memo value at `i` is the weight of some valid
selection drawn from the prefix `0..=i`.  Needs only sortedness. -/
lemma memoVal_achievable {l : List WeightedInterval} (hs : SortedByEnd l) :
    ∀ i, i < l.length → ∃ s, s.Sublist (l.take (i + 1)) ∧ ValidSel s ∧
      sumW s = memoVal l (l.getD 0 default).weight i := by
  intro i
  induction i using Nat.strong_induction_on with
  | _ i ih =>
    intro hi
    cases i with
    | zero =>
      have h1 : l.take (0 + 1) = [l.getD 0 default] := by
        rw [take_succ_getD hi]
        rfl
      refine ⟨[l.getD 0 default], ?_, by simp [ValidSel], ?_⟩
      · rw [h1]
      · rw [sumW_cons, sumW_nil, memoVal_zero, Nat.add_zero]
    | succ i' =>
      cases hfc : final_compatible l (i' + 1) with
      | some k =>
        have hk : k < i' + 1 := final_compatible_lt hfc
        have hrec := memoVal_succ_some ((l.getD 0 default).weight) hfc
        rcases max_choice ((l.getD (i' + 1) default).weight +
            memoVal l (l.getD 0 default).weight k)
            (memoVal l (l.getD 0 default).weight i') with hmx | hmx
        · obtain ⟨s', h1, h2, h3⟩ := ih k (by omega) (by omega)
          refine ⟨s' ++ [l.getD (i' + 1) default], ?_, ?_, ?_⟩
          · rw [take_succ_getD hi]
            exact List.Sublist.append
              (h1.trans (take_sublist_take (by omega))) (List.Sublist.refl _)
          · unfold ValidSel
            rw [List.pairwise_append]
            refine ⟨h2, by simp, ?_⟩
            intro x hx b hb
            have hbx : b = l.getD (i' + 1) default := by simpa using hb
            obtain ⟨j, hj1, hj2, hxj⟩ := mem_take_getD.mp (h1.subset hx)
            have hend : x.«end» ≤ (l.getD k default).«end» := by
              rw [hxj]; exact endLE_of_sorted hs (by omega) (by omega)
            have hcomp := final_compatible_endLE hfc
            subst hbx
            unfold NoConf
            intro hcon
            obtain ⟨hc1, hc2⟩ := hcon
            omega
          · rw [sumW_append, sumW_cons, sumW_nil, Nat.add_zero, h3, hrec, hmx]
            omega
        · obtain ⟨s', h1, h2, h3⟩ := ih i' (by omega) (by omega)
          refine ⟨s', h1.trans (take_sublist_take (by omega)), h2, ?_⟩
          rw [h3, hrec, hmx]
      | none =>
        have hrec := memoVal_succ_none ((l.getD 0 default).weight) hfc
        rcases max_choice (l.getD (i' + 1) default).weight
            (memoVal l (l.getD 0 default).weight i') with hmx | hmx
        · refine ⟨[l.getD (i' + 1) default], ?_, by simp [ValidSel], ?_⟩
          · rw [take_succ_getD hi]
            exact List.Sublist.append (List.nil_sublist _) (List.Sublist.refl _)
          · rw [sumW_cons, sumW_nil, Nat.add_zero, hrec, hmx]
        · obtain ⟨s', h1, h2, h3⟩ := ih i' (by omega) (by omega)
          refine ⟨s', h1.trans (take_sublist_take (by omega)), h2, ?_⟩
          rw [h3, hrec, hmx]

/-- The memo value equals the brute-force optimum over the corresponding
prefix, for end-sorted intervals of strictly positive length. -/
lemma memoVal_eq_bestValue {l : List WeightedInterval} (hs : SortedByEnd l)
    (hp : ∀ x ∈ l, x.start < x.«end») {i : Nat} (hi : i < l.length) :
    memoVal l (l.getD 0 default).weight i = bestValue (l.take (i + 1)) := by
  apply le_antisymm
  · obtain ⟨s, h1, h2, h3⟩ := memoVal_achievable hs i hi
    rw [← h3]
    exact sumW_le_bestValue h1 h2
  · obtain ⟨s, h1, h2, h3⟩ := bestValue_achieved (l.take (i + 1))
    rw [← h3]
    exact sumW_le_memoVal hs hp i hi s h1 h2

/-! ## The presorted entry point, end to end -/

lemma sorted_nil (memo : List Nat) (sol : List WeightedInterval) :
    sorted [] memo sol = some (memo, sol) := rfl

/-- Master lemma for the presorted entry point on nonempty end-sorted input
with a sufficiently long memo buffer: the call succeeds, appends the
reconstructed selection to the solution buffer, leaves the memo table equal
to the recurrence, and the selection weighs the final memo value and is
compatible in push order, drawn from the input. -/
lemma sorted_spec {l : List WeightedInterval} {memo : List Nat}
    (sol : List WeightedInterval) (hs : SortedByEnd l)
    (hlen : l.length ≤ memo.length) (hne : l ≠ []) :
    ∃ memo₁ r, sorted l memo sol = some (memo₁, sol ++ r) ∧
      memo₁.length = memo.length ∧
      (∀ j, j < l.length → memo₁.getD j 0 = memoVal l (l.getD 0 default).weight j) ∧
      sumW r = memoVal l (l.getD 0 default).weight (l.length - 1) ∧
      r.Pairwise (fun a b => b.«end» ≤ a.start) ∧
      (∀ x ∈ r, ∃ j, j < l.length ∧ x = l.getD j default) := by
  obtain ⟨i0, l', rfl⟩ : ∃ i0 l', l = i0 :: l' := by
    cases l with
    | nil => exact absurd rfl hne
    | cons a b => exact ⟨a, b, rfl⟩
  have hcl : (i0 :: l').length = l'.length + 1 := List.length_cons i0 l'
  have hmlen : 0 < memo.length := by omega
  have hslen : (i0 :: l').length ≤ (memo.set 0 i0.weight).length := by
    rw [List.length_set]; exact hlen
  have hseed0 : (memo.set 0 i0.weight).getD 0 0 = ((i0 :: l').getD 0 default).weight :=
    getD_set_self memo 0 i0.weight hmlen
  obtain ⟨memo₁, hfill, hlen1, hchar⟩ :=
    fillMemoF_spec (l := i0 :: l') (((i0 :: l').getD 0 default).weight)
      ((i0 :: l').length - 1) 1 (memo.set 0 i0.weight) (by omega) le_rfl hslen
      (by
        intro j hj
        have hj0 : j = 0 := by omega
        subst hj0
        rw [memoVal_zero]
        exact hseed0)
  have hlen2 : (i0 :: l').length ≤ memo₁.length := by rw [hlen1]; exact hslen
  obtain ⟨r, hrec, hsum⟩ := reconstructF_sum hlen2 hchar ((i0 :: l').length)
    ((i0 :: l').length - 1) (by omega) (by omega)
  obtain ⟨hmemr, hpw⟩ := reconstructF_valid hs ((i0 :: l').length)
    ((i0 :: l').length - 1) r (by omega) hrec
  refine ⟨memo₁, r, ?_, by rw [hlen1, List.length_set], hchar, hsum, hpw, ?_⟩
  · show (if 0 < memo.length then internal (i0 :: l') (memo.set 0 i0.weight) sol
      else none) = some (memo₁, sol ++ r)
    rw [if_pos hmlen]
    simp only [internal, hfill]
    rw [if_pos (show (i0 :: l').length ≠ 0 by omega), hrec]
    rfl
  · intro x hx
    obtain ⟨j, hj1, hj2, hj3⟩ := hmemr x hx
    exact ⟨j, hj2, hj3⟩

/-! ## Claim theorems -/

/-- Claim C1 counterexample, refuting the claim as stated on both entry
points.  Presorted path: the input `(5,5,1), (3,5,1)` is sorted ascending by
end bound and, with a correctly sized seeded memo buffer, the solver returns
only `(5,5,1)` (weight 1), yet the two intervals together do not overlap
under the spec's predicate and weigh 2.  Any-order path: on two disjoint
intervals the call panics (out-of-bounds memo write on the length-one memo
vector) instead of returning a subset. -/
theorem optimality_claim_cex :
    SortedByEnd [⟨5,5,1⟩, ⟨3,5,1⟩] ∧
    sorted [⟨5,5,1⟩, ⟨3,5,1⟩] [0, 0] [] = some ([1, 1], [⟨5,5,1⟩]) ∧
    sumW [⟨5,5,1⟩] = 1 ∧
    bestValue [⟨5,5,1⟩, ⟨3,5,1⟩] = 2 ∧
    unsorted [⟨0,1,1⟩, ⟨2,3,1⟩] = none :=
  ⟨by decide, by decide, by decide, by decide, by decide⟩

/-- Claim C1 (amended): restricted to the presorted entry point, on input
sorted ascending by end bound whose intervals all have strictly positive
length (start < end), with a memo buffer at least as long as the input: the
call succeeds and the returned subset's weight sum equals the maximum
achievable sum over all mutually non-overlapping subsets of the input. -/
theorem sorted_sumW_eq_bestValue (l : List WeightedInterval) (memo : List Nat)
    (hp : ∀ x ∈ l, x.start < x.«end») (hs : SortedByEnd l)
    (hlen : l.length ≤ memo.length) :
    ∃ memo₁ sol, sorted l memo [] = some (memo₁, sol) ∧ sumW sol = bestValue l := by
  by_cases hne : l = []
  · subst hne
    exact ⟨memo, [], rfl, by decide⟩
  · obtain ⟨memo₁, r, heq, _, _, hsum, _, _⟩ := sorted_spec [] hs hlen hne
    refine ⟨memo₁, [] ++ r, heq, ?_⟩
    rw [List.nil_append, hsum]
    have hlpos : 0 < l.length := List.length_pos.mpr hne
    rw [memoVal_eq_bestValue hs hp (show l.length - 1 < l.length by omega)]
    rw [show l.length - 1 + 1 = l.length by omega, List.take_length]

/-- Witness for the amended claim C1 at a concrete input. -/
theorem sorted_sumW_eq_bestValue_witness :
    (∀ x ∈ ([⟨1,4,5⟩, ⟨5,9,7⟩] : List WeightedInterval), x.start < x.«end») ∧
    SortedByEnd [⟨1,4,5⟩, ⟨5,9,7⟩] ∧
    ∃ memo₁ sol, sorted [⟨1,4,5⟩, ⟨5,9,7⟩] [0, 0] [] = some (memo₁, sol) ∧
      sumW sol = bestValue [⟨1,4,5⟩, ⟨5,9,7⟩] :=
  ⟨by decide, by decide,
   sorted_sumW_eq_bestValue _ _ (by decide) (by decide) (by decide)⟩

/-- Claim C2: for every nonempty input sorted ascending by end bound, with a
memo buffer at least as long as the input, the presorted entry point
succeeds and its returned subset contains no two intervals `a, b` with
`a.start < b.end` and `b.start < a.end` (touching allowed). -/
theorem sorted_output_no_overlap (l : List WeightedInterval) (memo : List Nat)
    (hne : l ≠ []) (hs : SortedByEnd l) (hlen : l.length ≤ memo.length) :
    ∃ memo₁ sol, sorted l memo [] = some (memo₁, sol) ∧
      sol.Pairwise (fun a b => ¬(a.start < b.«end» ∧ b.start < a.«end»)) := by
  obtain ⟨memo₁, r, heq, _, _, _, hpw, _⟩ := sorted_spec [] hs hlen hne
  refine ⟨memo₁, [] ++ r, heq, ?_⟩
  rw [List.nil_append]
  exact List.Pairwise.imp (fun hab hcon => by omega) hpw

/-- Witness for claim C2 at a concrete input. -/
theorem sorted_output_no_overlap_witness :
    ([⟨3,5,5⟩, ⟨5,9,7⟩] : List WeightedInterval) ≠ [] ∧
    SortedByEnd [⟨3,5,5⟩, ⟨5,9,7⟩] ∧
    ∃ memo₁ sol, sorted [⟨3,5,5⟩, ⟨5,9,7⟩] [0, 0] [] = some (memo₁, sol) ∧
      sol.Pairwise (fun a b => ¬(a.start < b.«end» ∧ b.start < a.«end»)) :=
  ⟨by decide, by decide,
   sorted_output_no_overlap _ _ (by decide) (by decide) (by decide)⟩

/-- Claim C3: for every sequence of intervals sorted ascending by end bound
and every index `i < length`, the compatibility finder returns the greatest
index `k` in `0..i` whose interval ends no later than interval `i` starts
(ties count as compatible), and returns none when no such index exists; in
particular index 0 always yields none. -/
theorem final_compatible_correct (l : List WeightedInterval) (i : Nat)
    (hs : SortedByEnd l) (hi : i < l.length) :
    IsGreatestCompat l i (final_compatible l i) ∧ final_compatible l 0 = none :=
  ⟨final_compatible_spec hs hi, final_compatible_zero l⟩

/-- Witness for claim C3 at a concrete end-sorted input and index. -/
theorem final_compatible_correct_witness :
    SortedByEnd [⟨1,4,5⟩, ⟨3,5,5⟩, ⟨5,9,7⟩] ∧ (2 : Nat) < 3 ∧
    IsGreatestCompat [⟨1,4,5⟩, ⟨3,5,5⟩, ⟨5,9,7⟩] 2
      (final_compatible [⟨1,4,5⟩, ⟨3,5,5⟩, ⟨5,9,7⟩] 2) :=
  ⟨by decide, by decide,
   (final_compatible_correct [⟨1,4,5⟩, ⟨3,5,5⟩, ⟨5,9,7⟩] 2 (by decide) (by decide)).1⟩

/-- Claim C4: during backward reconstruction, whenever the value achievable
by including interval `i` equals the value achievable by excluding it
(`included = memo[i-1]`, `i > 0`), interval `i` is not selected: the strict
greater-than comparison fails on the tie, so the walk moves to cursor `i-1`
without pushing anything. -/
theorem tie_excludes_interval (l : List WeightedInterval) (memo : List Nat)
    (fuel i z : Nat) (hi : 0 < i)
    (hinc : includedValue l memo i = some z)
    (hexc : memo[i - 1]? = some z) :
    reconstructF l memo (fuel + 1) (some i) =
      reconstructF l memo fuel (some (i - 1)) := by
  simp only [reconstructF, hinc, hexc, if_neg (by omega : ¬ i = 0),
    if_neg (lt_irrefl z)]

/-- Witness for claim C4 on a concrete tie. -/
theorem tie_excludes_interval_witness :
    (0 : Nat) < 1 ∧
    includedValue [⟨0,2,3⟩, ⟨1,3,3⟩] [3, 3] 1 = some 3 ∧
    ([3, 3] : List Nat)[0]? = some 3 ∧
    reconstructF [⟨0,2,3⟩, ⟨1,3,3⟩] [3, 3] 2 (some 1) =
      reconstructF [⟨0,2,3⟩, ⟨1,3,3⟩] [3, 3] 1 (some 0) :=
  ⟨by decide, by decide, by decide,
   tie_excludes_interval [⟨0,2,3⟩, ⟨1,3,3⟩] [3, 3] 1 1 3 (by decide) (by decide)
     (by decide)⟩

/-- Claim C5 counterexample to the claim as stated: on empty input the
any-order entry point does invoke the engine (exactly once), although it
still returns an empty result without panicking. -/
theorem empty_input_engine_called_cex :
    unsortedEngineCalls [] = 1 ∧ unsorted [] = some [] :=
  ⟨rfl, rfl⟩

/-- Claim C5 (amended): on empty input both entry points return an empty
result without panicking; the presorted entry point returns before invoking
the engine (zero engine calls), while the any-order entry point invokes the
engine once, a no-op on the empty sequence. -/
theorem empty_input_behavior :
    (∀ (memo : List Nat) (sol : List WeightedInterval),
      sorted [] memo sol = some (memo, sol) ∧ sortedEngineCalls [] memo = 0) ∧
    unsorted [] = some [] ∧ unsortedEngineCalls [] = 1 :=
  ⟨fun _memo _sol => ⟨rfl, rfl⟩, rfl, rfl⟩

/-- Claim C6: on inputs meeting the preconditions the solver terminates: the
binary-search loop reaches its exit within its initial window width (its
result is the same under any fuel at least that bound), a jump to the final
compatible predecessor strictly decreases the reconstruction cursor, and the
reconstruction loop reaches its exit within `cursor + 1` iterations. -/
theorem solver_loops_terminate :
    (∀ (l : List WeightedInterval) (t f₁ f₂ low high : Nat),
      high - low ≤ f₁ → high - low ≤ f₂ →
      fcLoopF l t f₁ low high = fcLoopF l t f₂ low high) ∧
    (∀ (l : List WeightedInterval) (i k : Nat),
      final_compatible l i = some k → k < i) ∧
    (∀ (l : List WeightedInterval) (memo : List Nat) (f₁ f₂ : Nat) (j : Option Nat),
      cursorFuel j ≤ f₁ → cursorFuel j ≤ f₂ →
      reconstructF l memo f₁ j = reconstructF l memo f₂ j) :=
  ⟨fun l t f₁ f₂ low high h1 h2 => fcLoopF_fuel_irrel l t f₁ f₂ low high h1 h2,
   fun _ _ _ h => final_compatible_lt h,
   fun l memo f₁ f₂ j h1 h2 => reconstructF_fuel_irrel l memo f₁ f₂ j h1 h2⟩

/-- Witness for claim C6 at concrete inputs. -/
theorem solver_loops_terminate_witness :
    fcLoopF [⟨1,4,5⟩, ⟨3,5,5⟩, ⟨5,9,7⟩] 5 3 0 2 =
      fcLoopF [⟨1,4,5⟩, ⟨3,5,5⟩, ⟨5,9,7⟩] 5 7 0 2 ∧
    (1 : Nat) < 2 ∧
    reconstructF [⟨1,4,5⟩] [5] 4 (some 0) = reconstructF [⟨1,4,5⟩] [5] 9 (some 0) :=
  ⟨solver_loops_terminate.1 [⟨1,4,5⟩, ⟨3,5,5⟩, ⟨5,9,7⟩] 5 3 7 0 2 (by decide)
     (by decide),
   solver_loops_terminate.2.1 [⟨1,4,5⟩, ⟨3,5,5⟩, ⟨5,9,7⟩] 2 1 (by decide),
   solver_loops_terminate.2.2 [⟨1,4,5⟩] [5] 4 9 (some 0) (by decide) (by decide)⟩

/-- Claim C7: after the fill pass on end-sorted input with a sufficiently
long memo buffer seeded with interval 0's weight, the memo table is
monotonically non-decreasing: for `1 <= i < n`, `memo[i] >= memo[i-1]`. -/
theorem memo_monotone (l : List WeightedInterval) (memo memo' : List Nat) (i : Nat)
    (hlen : l.length ≤ memo.length)
    (hseed : memo.getD 0 0 = (l.getD 0 default).weight)
    (h1 : 1 ≤ i) (h2 : i < l.length)
    (hfill : fillMemoF l (l.length - 1) 1 memo = some memo') :
    memo'.getD (i - 1) 0 ≤ memo'.getD i 0 := by
  obtain ⟨memo₂, hfill2, _hlen2, hchar⟩ :=
    fillMemoF_spec ((l.getD 0 default).weight)
      (l.length - 1) 1 memo (by omega) le_rfl hlen
      (by
        intro j hj
        have hj0 : j = 0 := by omega
        subst hj0
        rw [memoVal_zero]
        exact hseed)
  have hmm : memo₂ = memo' := Option.some.inj (hfill2.symm.trans hfill)
  subst hmm
  obtain ⟨i', rfl⟩ : ∃ i', i = i' + 1 := ⟨i - 1, by omega⟩
  have hidx : i' + 1 - 1 = i' := rfl
  rw [hidx, hchar i' (by omega), hchar (i' + 1) h2]
  exact memoVal_le_succ l _ i'

/-- Witness for claim C7 at a concrete input. -/
theorem memo_monotone_witness :
    fillMemoF [⟨1,4,5⟩, ⟨3,5,5⟩]
      (([⟨1,4,5⟩, ⟨3,5,5⟩] : List WeightedInterval).length - 1) 1 [5, 0]
      = some [5, 5] ∧
    ([5, 5] : List Nat).getD 0 0 ≤ ([5, 5] : List Nat).getD 1 0 :=
  ⟨by decide,
   memo_monotone [⟨1,4,5⟩, ⟨3,5,5⟩] [5, 0] [5, 5] 1 (by decide) (by decide)
     (by decide) (by decide) (by decide)⟩

/-- Claim C8: the concrete eight-interval scenario.  The repository's own
test drives it through the any-order entry point, which panics: the memo
vector is allocated with length one, so the fill pass writes out of bounds.
The intended result is produced by the engine once the input is sorted by
end bound and the memo buffer is correctly sized: exactly `(5,9,7)` then
`(1,4,5)` in reconstruction order, total weight 12.  Note that the listed
input is sorted ascending by start, not by end (ends run 6,4,5,8,7,9,10,11). -/
theorem small_example_eval :
    unsorted [⟨0,6,3⟩, ⟨1,4,5⟩, ⟨3,5,5⟩, ⟨3,8,8⟩, ⟨4,7,3⟩, ⟨5,9,7⟩, ⟨6,10,3⟩,
      ⟨8,11,4⟩] = none ∧
    sortByEnd [⟨0,6,3⟩, ⟨1,4,5⟩, ⟨3,5,5⟩, ⟨3,8,8⟩, ⟨4,7,3⟩, ⟨5,9,7⟩, ⟨6,10,3⟩,
      ⟨8,11,4⟩] =
      [⟨1,4,5⟩, ⟨3,5,5⟩, ⟨0,6,3⟩, ⟨4,7,3⟩, ⟨3,8,8⟩, ⟨5,9,7⟩, ⟨6,10,3⟩, ⟨8,11,4⟩] ∧
    sorted [⟨1,4,5⟩, ⟨3,5,5⟩, ⟨0,6,3⟩, ⟨4,7,3⟩, ⟨3,8,8⟩, ⟨5,9,7⟩, ⟨6,10,3⟩,
      ⟨8,11,4⟩] [0, 0, 0, 0, 0, 0, 0, 0] []
      = some ([5, 5, 5, 8, 8, 12, 12, 12], [⟨5,9,7⟩, ⟨1,4,5⟩]) ∧
    sumW [⟨5,9,7⟩, ⟨1,4,5⟩] = 12 :=
  ⟨by decide, by decide, by decide, by decide⟩

/-- Claim C9: the solution buffer is append-only: whatever the presorted
entry point returns, the prior contents of the solution buffer are preserved
unchanged at their positions, and all newly selected intervals follow them. -/
theorem solution_buffer_append_only (l : List WeightedInterval)
    (memo memo₁ : List Nat) (sol sol₁ : List WeightedInterval)
    (h : sorted l memo sol = some (memo₁, sol₁)) :
    ∃ r, sol₁ = sol ++ r := by
  cases l with
  | nil =>
    rw [sorted_nil] at h
    have h2 : sol = sol₁ := congrArg Prod.snd (Option.some.inj h)
    exact ⟨[], by rw [← h2, List.append_nil]⟩
  | cons i0 l' =>
    simp only [sorted] at h
    by_cases hm : 0 < memo.length
    · rw [if_pos hm] at h
      cases hfill : fillMemoF (i0 :: l') ((i0 :: l').length - 1) 1
          (memo.set 0 i0.weight) with
      | none =>
        rw [show internal (i0 :: l') (memo.set 0 i0.weight) sol = none from
          by simp only [internal, hfill]] at h
        exact Option.noConfusion h
      | some memo₂ =>
        simp only [internal, hfill] at h
        cases hrec : reconstructF (i0 :: l') memo₂ (i0 :: l').length
            (if (i0 :: l').length ≠ 0 then some ((i0 :: l').length - 1)
             else none) with
        | none =>
          rw [hrec] at h
          exact Option.noConfusion h
        | some r =>
          rw [hrec] at h
          simp only [Option.map_some'] at h
          exact ⟨r, (congrArg Prod.snd (Option.some.inj h)).symm⟩
    · rw [if_neg hm] at h
      exact Option.noConfusion h

/-- Witness for claim C9: a call appending one interval after an old one. -/
theorem solution_buffer_append_only_witness :
    sorted [⟨1,4,5⟩] [0] [⟨9,9,9⟩] = some ([5], [⟨9,9,9⟩, ⟨1,4,5⟩]) ∧
    ∃ r, ([⟨9,9,9⟩, ⟨1,4,5⟩] : List WeightedInterval) =
      [(⟨9,9,9⟩ : WeightedInterval)] ++ r :=
  ⟨by decide,
   solution_buffer_append_only [⟨1,4,5⟩] [0] [5] [⟨9,9,9⟩] [⟨9,9,9⟩, ⟨1,4,5⟩]
     (by decide)⟩

/-- Claim C10: on nonempty input the presorted entry point itself writes
interval 0's weight into `memoization[0]` before running the engine: the
result does not depend on the prior contents of `memoization[0]`, and after
a successful call the final memo table holds interval 0's weight at index 0,
so the caller does not need to pre-seed it. -/
theorem sorted_seeds_memo_zero (i0 : WeightedInterval) (l' : List WeightedInterval)
    (memo : List Nat) (v v' : Nat) (sol : List WeightedInterval) :
    sorted (i0 :: l') (v :: memo) sol = sorted (i0 :: l') (v' :: memo) sol ∧
    (∀ memo₁ sol₁, sorted (i0 :: l') (v :: memo) sol = some (memo₁, sol₁) →
      memo₁.getD 0 0 = i0.weight) := by
  constructor
  · rfl
  · intro memo₁ sol₁ h
    simp only [sorted] at h
    rw [if_pos (by simp : 0 < (v :: memo).length)] at h
    cases hfill : fillMemoF (i0 :: l') ((i0 :: l').length - 1) 1
        ((v :: memo).set 0 i0.weight) with
    | none =>
      rw [show internal (i0 :: l') ((v :: memo).set 0 i0.weight) sol = none from
        by simp only [internal, hfill]] at h
      exact Option.noConfusion h
    | some memo₂ =>
      simp only [internal, hfill] at h
      cases hrec : reconstructF (i0 :: l') memo₂ (i0 :: l').length
          (if (i0 :: l').length ≠ 0 then some ((i0 :: l').length - 1)
           else none) with
      | none =>
        rw [hrec] at h
        exact Option.noConfusion h
      | some r =>
        rw [hrec] at h
        simp only [Option.map_some'] at h
        have hm : memo₂ = memo₁ := congrArg Prod.fst (Option.some.inj h)
        have hz := fillMemoF_getD_zero (i0 :: l') ((i0 :: l').length - 1) 1
          ((v :: memo).set 0 i0.weight) memo₂ le_rfl hfill
        rw [← hm, hz]
        rfl

/-- Witness for claim C10: two calls differing only in the stale seed slot. -/
theorem sorted_seeds_memo_zero_witness :
    sorted [⟨1,4,5⟩] [7] [] = sorted [⟨1,4,5⟩] [9] [] ∧
    ([5] : List Nat).getD 0 0 = (⟨1,4,5⟩ : WeightedInterval).weight :=
  ⟨(sorted_seeds_memo_zero ⟨1,4,5⟩ [] [] 7 9 []).1,
   (sorted_seeds_memo_zero ⟨1,4,5⟩ [] [] 7 9 []).2 [5] [⟨1,4,5⟩] (by decide)⟩

end WInter
